import Mathlib

/-!
Verification of the digit-addressing core of the `nit` crate.

The crate treats a fixed-width unsigned integer as a sequence of base-`BASE`
digits ("nits") and reads or replaces one digit in place using only integer
arithmetic.  The Rust source is shallowly embedded below:

* machine integers of the `TYPE_BIT_WIDTH`-bit backing type are modelled as
  `Nat` values `< 2 ^ TYPE_BIT_WIDTH`, and every wrapping operation of the
  source carries an explicit `% 2 ^ TYPE_BIT_WIDTH`;
* the `u8` const-generic parameters (`BaseMaximum` and `FitsMaximumBits` are
  both `u8` in `src/supported.rs`) are modelled as `Nat` arguments; every
  theorem below only instantiates them inside the `u8` range, where the
  translation is exact;
* Rust `Result` is modelled by the isomorphic `Result` inductive below,
  `Option` by Lean's `Option`;
* `PlacesIndex<W, B>` is `#[repr(transparent)]` over the raw index, so a
  places index is modelled as the raw `Nat` index, validity being the
  success of `PlacesIndex.new`;
* `Nit<BASE>` is `#[repr(transparent)]` over its raw value (an arbitrary
  `u8` whose checked constructor enforces `value < BASE`), so a nit is
  modelled as its raw `Nat` value together with a `< BASE` hypothesis
  wherever the source guarantees one.
-/

/-- Rust's `Result` enum, as returned by the fallible operations of the crate. -/
inductive Result (T : Type) (E : Type) where
  | Ok (val : T)
  | Err (err : E)
deriving DecidableEq, Repr

/-- `MAXIMUM_SUPPORTED_BITS` from `src/supported.rs`: the widest supported
backing integer, 128 bits.  It also bounds the supported bases. -/
def MAXIMUM_SUPPORTED_BITS : Nat := 128

/-- `MaxNitComputationFailure` from `src/max_nits.rs`: the reason the maximum
nit-count computation failed. -/
inductive MaxNitComputationFailure where
  | BaseTooSmall
  | BaseTooLarge
  | BitsTooSmall
  | BitsTooLarge
  | BaseExceedsMaxBitValues
deriving DecidableEq, Repr

/-- Fuel-based helper for `ilog`: `ilogAux b fuel n` counts how many times `n`
can be divided by `b` before falling below `b`.  The fuel only serves to make
the recursion structural; `fuel ≥ n` is enough for it never to run out. -/
def ilogAux (b : Nat) : Nat → Nat → Nat
  | 0, _ => 0
  | fuel + 1, n => if n < b then 0 else ilogAux b fuel (n / b) + 1

/-- Rust's `u128::ilog(self, base)`: the base-`b` integer logarithm of `n`,
rounded down.  (Rust panics when `self = 0` or `base < 2`; the crate only
calls it with `self ≥ 2` and `base ≥ 3`, and all theorems below stay in that
range.) -/
def ilog (n b : Nat) : Nat := ilogAux b n n

/-- `compute_max_nits_in_bits::<BASE, BITS>()` from `src/max_nits.rs`:
the maximum amount of base-`BASE` digits storable in a `BITS`-bit integer.

Source notes: `max` is `u128::MAX` when `BITS` is the maximum width and
`(1u128 << BITS) - 1` otherwise; the final `log as FitsMaximumBits` cast
truncates the `u32` result of `ilog` to `u8`, hence the `% 256`. -/
def compute_max_nits_in_bits (BASE BITS : Nat) : Result Nat MaxNitComputationFailure :=
  if BITS < 1 then .Err .BitsTooSmall
  else if BITS > MAXIMUM_SUPPORTED_BITS then .Err .BitsTooLarge
  else if BASE ≤ 1 then .Err .BaseTooSmall
  else if BASE = 2 then .Ok BITS
  else if BASE > MAXIMUM_SUPPORTED_BITS then .Err .BaseTooLarge
  else
    let max := if BITS = MAXIMUM_SUPPORTED_BITS then 2 ^ 128 - 1 else (1 <<< BITS) - 1
    if max < BASE - 1 then .Err .BaseExceedsMaxBitValues
    else .Ok (ilog max BASE % 256)

/-- `PlacesIndexCreationError` from `src/places.rs`. -/
inductive PlacesIndexCreationError where
  | BadNitLimitEvaluation (err : MaxNitComputationFailure)
  | OutOfBounds
deriving DecidableEq, Repr

/-- `PlacesIndex::<TYPE_BIT_WIDTH, BASE>::new(index)` from `src/places.rs`.
The struct is `#[repr(transparent)]` over the index, so success carries the
raw index itself. -/
def PlacesIndex.new (TYPE_BIT_WIDTH BASE index : Nat) :
    Result Nat PlacesIndexCreationError :=
  match compute_max_nits_in_bits BASE TYPE_BIT_WIDTH with
  | .Err err => .Err (.BadNitLimitEvaluation err)
  | .Ok max => if index ≥ max then .Err .OutOfBounds else .Ok index

/-- Wrapping subtraction on the `2 ^ W`-value backing type
(Rust `overflowing_sub(..).0`); both arguments are machine values `< M`. -/
def wrapping_sub (M a b : Nat) : Nat := (a % M + (M - b % M)) % M

/-- Wrapping multiplication on the backing type (Rust `overflowing_mul(..).0`). -/
def wrapping_mul (M a b : Nat) : Nat := a * b % M

/-- Wrapping addition on the backing type (Rust `overflowing_add(..).0`). -/
def wrapping_add (M a b : Nat) : Nat := (a + b) % M

/-- `<$type>::get_places_shifter(n)` from `src/base.rs`: computes
`(BASE as $type).pow(n)` in the backing type's arithmetic (wrapping, hence
the `% 2 ^ TYPE_BIT_WIDTH`) and wraps it in a `PlacesShifter` (transparent
over the value, so modelled as the value). -/
def get_places_shifter (TYPE_BIT_WIDTH BASE n : Nat) : Nat :=
  BASE ^ n % 2 ^ TYPE_BIT_WIDTH

/-- `get_nit_indexed` from `src/data_container.rs`: the base-`BASE` digit of
`x` at the validated place `n`, namely `(x / shifter) % modulator` computed in
the backing type.  (Both operands are `< 2 ^ W` machine values, so native and
`Nat` division/modulo agree; the final `as FitsMaximumBits` cast is lossless
because the digit is `< BASE ≤ 255`.) -/
def get_nit_indexed (TYPE_BIT_WIDTH BASE x n : Nat) : Nat :=
  let shifter := get_places_shifter TYPE_BIT_WIDTH BASE n
  let modulator := BASE
  x / shifter % modulator

/-- `set_nit_indexed` from `src/data_container.rs`.  Returns the pair of the
mutated `self` (first component) and the returned previous digit (second
component).  `diff`, `adjust` and the final add use the source's explicitly
overflowing operations on the `TYPE_BIT_WIDTH`-bit backing type. -/
def set_nit_indexed (TYPE_BIT_WIDTH BASE x n value : Nat) : Nat × Nat :=
  let M := 2 ^ TYPE_BIT_WIDTH
  let shifter := get_places_shifter TYPE_BIT_WIDTH BASE n
  let modulator := BASE
  let digit := x / shifter % modulator
  let diff := wrapping_sub M value digit
  let adjust := wrapping_mul M diff shifter
  (wrapping_add M x adjust, digit)

/-- `get_nit` from `src/data_container.rs`: validates the raw index, then
delegates to `get_nit_indexed`. -/
def get_nit (TYPE_BIT_WIDTH BASE x n : Nat) : Option Nat :=
  match PlacesIndex.new TYPE_BIT_WIDTH BASE n with
  | .Ok v => some (get_nit_indexed TYPE_BIT_WIDTH BASE x v)
  | .Err _ => none

/-- `set_nit` from `src/data_container.rs`: validates the raw index, then
delegates to `set_nit_indexed`.  First component: the final `self` (unchanged
when validation fails, since the source returns before touching `self`);
second component: the Rust return value. -/
def set_nit (TYPE_BIT_WIDTH BASE x n value : Nat) :
    Nat × Result Nat PlacesIndexCreationError :=
  match PlacesIndex.new TYPE_BIT_WIDTH BASE n with
  | .Ok v => ((set_nit_indexed TYPE_BIT_WIDTH BASE x v value).1,
              .Ok (set_nit_indexed TYPE_BIT_WIDTH BASE x v value).2)
  | .Err e => (x, .Err e)

/-- The base-3 packing scenario of the specification: starting from the 8-bit
value `0`, sequentially write the digits `1, 2, 0, 0, 2` (base 3) at places
`0, 1, 2, 3, 4` with `set_nit`; this is the resulting integer. -/
def base3_packing_result : Nat :=
  let x0 : Nat := 0
  let x1 := (set_nit 8 3 x0 0 1).1
  let x2 := (set_nit 8 3 x1 1 2).1
  let x3 := (set_nit 8 3 x2 2 0).1
  let x4 := (set_nit 8 3 x3 3 0).1
  (set_nit 8 3 x4 4 2).1

/-- The integer logarithm helper satisfies the floor-log bracketing
`b ^ log ≤ n < b ^ (log + 1)` as soon as the fuel covers `n`. -/
lemma ilogAux_spec (b : Nat) (hb : 2 ≤ b) :
    ∀ fuel n, 1 ≤ n → n ≤ fuel →
      b ^ ilogAux b fuel n ≤ n ∧ n < b ^ (ilogAux b fuel n + 1) := by
  intro fuel
  induction fuel with
  | zero => intro n h1 h2; omega
  | succ f ih =>
    intro n h1 h2
    by_cases hnb : n < b
    · simp only [ilogAux, if_pos hnb]
      constructor
      · simpa using h1
      · simpa using hnb
    · simp only [ilogAux, if_neg hnb]
      have hbn : b ≤ n := le_of_not_lt hnb
      have hb0 : 0 < b := by omega
      have h1q : 1 ≤ n / b := (Nat.one_le_div_iff hb0).mpr hbn
      have h2q : n / b ≤ f := by
        have := Nat.div_lt_self (show 0 < n by omega) (show 1 < b by omega)
        omega
      obtain ⟨hlo, hhi⟩ := ih (n / b) h1q h2q
      constructor
      · calc b ^ (ilogAux b f (n / b) + 1)
            = b ^ ilogAux b f (n / b) * b := by rw [pow_succ]
          _ ≤ n / b * b := Nat.mul_le_mul_right b hlo
          _ ≤ n := Nat.div_mul_le_self n b
      · have hmod : n % b < b := Nat.mod_lt n hb0
        have hdm : b * (n / b) + n % b = n := Nat.div_add_mod n b
        have hstep : n < (n / b + 1) * b := by
          have : (n / b + 1) * b = b * (n / b) + b := by ring
          omega
        have hq1 : n / b + 1 ≤ b ^ (ilogAux b f (n / b) + 1) := hhi
        calc n < (n / b + 1) * b := hstep
          _ ≤ b ^ (ilogAux b f (n / b) + 1) * b := Nat.mul_le_mul_right b hq1
          _ = b ^ (ilogAux b f (n / b) + 1 + 1) := (pow_succ b _).symm

/-- Floor-log bracketing for `ilog` itself. -/
lemma ilog_spec (n b : Nat) (hb : 2 ≤ b) (hn : 1 ≤ n) :
    b ^ ilog n b ≤ n ∧ n < b ^ (ilog n b + 1) :=
  ilogAux_spec b hb n n hn le_rfl

/-- `ilog` is below any exponent whose power exceeds `n`. -/
lemma ilog_lt (n b m : Nat) (hb : 2 ≤ b) (hn : 1 ≤ n) (h : n < b ^ m) :
    ilog n b < m := by
  by_contra hcon
  push_neg at hcon
  have h1 := (ilog_spec n b hb hn).1
  have h2 : b ^ m ≤ b ^ ilog n b := Nat.pow_le_pow_right (by omega) hcon
  omega

/-- `ilog` agrees with Mathlib's floor logarithm. -/
lemma ilog_eq_log (n b : Nat) (hb : 2 ≤ b) (hn : 1 ≤ n) :
    ilog n b = Nat.log b n := by
  obtain ⟨h1, h2⟩ := ilog_spec n b hb hn
  exact (Nat.log_eq_of_pow_le_of_lt_pow h1 h2).symm

/-- The `max` expression of `compute_max_nits_in_bits` is `2 ^ BITS - 1` in
both of its branches. -/
lemma compute_max_unfold (BITS : Nat) :
    (if BITS = MAXIMUM_SUPPORTED_BITS then 2 ^ 128 - 1 else (1 <<< BITS) - 1)
      = 2 ^ BITS - 1 := by
  by_cases h : BITS = MAXIMUM_SUPPORTED_BITS
  · rw [if_pos h, h]; rfl
  · rw [if_neg h, Nat.shiftLeft_eq, one_mul]

/-- Everything a successful capacity computation guarantees: the range checks
passed, and the count is either `BITS` (base 2) or the integer logarithm. -/
lemma compute_ok_elim (BASE BITS c : Nat)
    (h : compute_max_nits_in_bits BASE BITS = .Ok c) :
    1 ≤ BITS ∧ BITS ≤ 128 ∧ 2 ≤ BASE ∧
      ((BASE = 2 ∧ c = BITS) ∨
       (3 ≤ BASE ∧ BASE ≤ 128 ∧ BASE - 1 ≤ 2 ^ BITS - 1 ∧
        c = ilog (2 ^ BITS - 1) BASE)) := by
  simp only [compute_max_nits_in_bits] at h
  rw [compute_max_unfold] at h
  simp only [MAXIMUM_SUPPORTED_BITS] at h
  split_ifs at h with h1 h2 h3 h4 h5 h6
  · cases h
    refine ⟨by omega, by omega, by omega, Or.inl ⟨h4, rfl⟩⟩
  · cases h
    have hB3 : 3 ≤ BASE := by omega
    have hmax1 : 1 ≤ 2 ^ BITS - 1 := by
      have : 2 ≤ BASE - 1 + 1 := by omega
      omega
    have hlt : ilog (2 ^ BITS - 1) BASE < 256 := by
      apply ilog_lt _ _ _ (by omega) hmax1
      calc 2 ^ BITS - 1 < 2 ^ BITS := by omega
        _ ≤ 2 ^ 256 := Nat.pow_le_pow_right (by omega) (by omega)
        _ ≤ BASE ^ 256 := Nat.pow_le_pow_left (by omega) 256
    refine ⟨by omega, by omega, by omega,
      Or.inr ⟨hB3, by omega, by omega, Nat.mod_eq_of_lt hlt⟩⟩

/-- A successful capacity computation forces the base to fit the width. -/
lemma capacity_base_le (BASE BITS c : Nat)
    (h : compute_max_nits_in_bits BASE BITS = .Ok c) : BASE ≤ 2 ^ BITS := by
  obtain ⟨hW1, _, hB2, hcase⟩ := compute_ok_elim BASE BITS c h
  rcases hcase with ⟨hB, _⟩ | ⟨_, _, hle, _⟩
  · subst hB
    calc 2 = 2 ^ 1 := rfl
      _ ≤ 2 ^ BITS := Nat.pow_le_pow_right (by omega) hW1
  · have := Nat.two_pow_pos BITS
    omega

/-- The load-bearing capacity bound: `BASE ^ capacity` fits in `BITS` bits. -/
lemma capacity_pow_le (BASE BITS c : Nat)
    (h : compute_max_nits_in_bits BASE BITS = .Ok c) : BASE ^ c ≤ 2 ^ BITS := by
  obtain ⟨hW1, _, hB2, hcase⟩ := compute_ok_elim BASE BITS c h
  rcases hcase with ⟨hB, hc⟩ | ⟨hB3, _, hle, hc⟩
  · subst hB; subst hc; exact le_rfl
  · subst hc
    have hmax1 : 1 ≤ 2 ^ BITS - 1 := by omega
    have := (ilog_spec (2 ^ BITS - 1) BASE (by omega) hmax1).1
    omega

/-- A successful capacity computation keeps the base at least 2. -/
lemma capacity_two_le (BASE BITS c : Nat)
    (h : compute_max_nits_in_bits BASE BITS = .Ok c) : 2 ≤ BASE :=
  (compute_ok_elim BASE BITS c h).2.2.1

/-- For a validated place, the shifter is exactly `BASE ^ n`: the native
power does not wrap. -/
lemma shifter_eq (W B c n : Nat)
    (h : compute_max_nits_in_bits B W = .Ok c) (hn : n < c) :
    get_places_shifter W B n = B ^ n := by
  have hB := capacity_two_le B W c h
  have hpow : B ^ n < 2 ^ W := by
    calc B ^ n < B ^ c := Nat.pow_lt_pow_right (by omega) hn
      _ ≤ 2 ^ W := capacity_pow_le B W c h
  unfold get_places_shifter
  exact Nat.mod_eq_of_lt hpow

/-- Digits strictly below place `n` ignore any multiple of `B ^ n`. -/
lemma low_digit (B n j a w : Nat) (hj : j < n) :
    (a + B ^ n * w) / B ^ j % B = a / B ^ j % B := by
  by_cases hB : B = 0
  · subst hB
    have hn0 : (0 : Nat) ^ n = 0 := Nat.zero_pow (by omega)
    rw [hn0, Nat.zero_mul, Nat.add_zero]
  · have hj0 : 0 < B ^ j := Nat.pos_pow_of_pos j (by omega)
    have hsplit : B ^ n * w = B ^ j * (B ^ (n - j) * w) := by
      rw [← mul_assoc, ← pow_add]
      congr 2
      omega
    rw [hsplit, Nat.add_mul_div_left _ _ hj0]
    obtain ⟨k, hk⟩ : ∃ k, n - j = k + 1 := ⟨n - j - 1, by omega⟩
    rw [hk, pow_succ', mul_assoc, Nat.add_mul_mod_self_left]

/-- Dividing away a full place recovers the upper digits exactly. -/
lemma add_mul_div_self_eq (r q P : Nat) (hP : 0 < P) (hr : r < P) :
    (r + q * P) / P = q := by
  rw [Nat.add_mul_div_right _ _ hP, Nat.div_eq_of_lt hr, Nat.zero_add]

/-- The heart of the verification: under the crate's own validity
preconditions and for a backing value below `B ^ capacity`, the wrapping
update of `set_nit_indexed` never actually wraps, and the mutated integer is
exactly the original with the digit at place `n` replaced by `value`:
`x % B ^ n  +  value * B ^ n  +  (x / B ^ (n+1)) * B ^ (n+1)`.
The second conjunct bounds that result below `B ^ c` again. -/
lemma set_nit_closed_form (W B c n v x : Nat)
    (h : compute_max_nits_in_bits B W = .Ok c)
    (hn : n < c) (hv : v < B) (hx : x < B ^ c) :
    (set_nit_indexed W B x n v).1
        = x % B ^ n + v * B ^ n + x / B ^ (n + 1) * B ^ (n + 1) ∧
      x % B ^ n + v * B ^ n + x / B ^ (n + 1) * B ^ (n + 1) < B ^ c := by
  have hB : 2 ≤ B := capacity_two_le B W c h
  have hBM : B ≤ 2 ^ W := capacity_base_le B W c h
  have hcM : B ^ c ≤ 2 ^ W := capacity_pow_le B W c h
  have hsh : get_places_shifter W B n = B ^ n := shifter_eq W B c n h hn
  have hs0 : 0 < B ^ n := Nat.pos_pow_of_pos n (by omega)
  have hP0 : 0 < B ^ (n + 1) := Nat.pos_pow_of_pos (n + 1) (by omega)
  have hdB : x / B ^ n % B < B := Nat.mod_lt _ (by omega)
  have haS : x % B ^ n < B ^ n := Nat.mod_lt _ hs0
  -- the positional decomposition of `x` around place `n`
  have e3 : x / B ^ n / B = x / B ^ (n + 1) := by
    rw [Nat.div_div_eq_div_mul, ← pow_succ]
  have hx_dec : x = x % B ^ n + (x / B ^ n % B) * B ^ n
      + x / B ^ (n + 1) * B ^ (n + 1) := by
    have e1 := Nat.mod_add_div x (B ^ n)
    have e2 := Nat.mod_add_div (x / B ^ n) B
    calc x = x % B ^ n + B ^ n * (x / B ^ n) := e1.symm
      _ = x % B ^ n + B ^ n * (x / B ^ n % B + B * (x / B ^ n / B)) := by
          rw [e2]
      _ = x % B ^ n + (x / B ^ n % B) * B ^ n
            + x / B ^ n / B * (B ^ n * B) := by ring
      _ = x % B ^ n + (x / B ^ n % B) * B ^ n
            + x / B ^ (n + 1) * B ^ (n + 1) := by rw [e3, ← pow_succ]
  -- the bound: the rewritten value stays below `B ^ c`
  have f2 : (v + 1) * B ^ n ≤ B * B ^ n := Nat.mul_le_mul_right (B ^ n) (by omega)
  have f2e : (v + 1) * B ^ n = v * B ^ n + B ^ n := by ring
  have f3 : B * B ^ n = B ^ (n + 1) := by
    rw [pow_succ]; exact mul_comm B (B ^ n)
  have f4 : B ^ (n + 1) * B ^ (c - (n + 1)) = B ^ c := by
    rw [← pow_add]; congr 1; omega
  have f5 : x / B ^ (n + 1) < B ^ (c - (n + 1)) := by
    refine (Nat.div_lt_iff_lt_mul hP0).mpr ?_
    calc x < B ^ c := hx
      _ = B ^ (c - (n + 1)) * B ^ (n + 1) := by rw [mul_comm]; exact f4.symm
  have f6 : B ^ (n + 1) * (x / B ^ (n + 1) + 1)
      ≤ B ^ (n + 1) * B ^ (c - (n + 1)) := Nat.mul_le_mul_left _ (by omega)
  have f7 : B ^ (n + 1) * (x / B ^ (n + 1) + 1)
      = x / B ^ (n + 1) * B ^ (n + 1) + B ^ (n + 1) := by ring
  have hTlt : x % B ^ n + v * B ^ n + x / B ^ (n + 1) * B ^ (n + 1) < B ^ c := by
    omega
  refine ⟨?_, hTlt⟩
  -- now compute the wrapping update
  simp only [set_nit_indexed, wrapping_sub, wrapping_mul, wrapping_add, hsh]
  have hvM : v % 2 ^ W = v := Nat.mod_eq_of_lt (by omega)
  have hdM : x / B ^ n % B % 2 ^ W = x / B ^ n % B := Nat.mod_eq_of_lt (by omega)
  rw [hvM, hdM, Nat.mod_mul_mod, Nat.add_mod_mod]
  have hds_le : (x / B ^ n % B) * B ^ n ≤ 2 ^ W * B ^ n :=
    Nat.mul_le_mul_right (B ^ n) (by omega)
  have hcomm : 2 ^ W * B ^ n = B ^ n * 2 ^ W := mul_comm _ _
  have hkey : x + (v + (2 ^ W - x / B ^ n % B)) * B ^ n
      = (x % B ^ n + v * B ^ n + x / B ^ (n + 1) * B ^ (n + 1))
        + B ^ n * 2 ^ W := by
    rw [Nat.add_mul, Nat.sub_mul]
    omega
  rw [hkey, Nat.add_mul_mod_self_right]
  exact Nat.mod_eq_of_lt (by omega)

/-- Claim C1, amended: for every backing width and base whose capacity
computation succeeds with value `c`, every validated place `n < c`, every
digit value `v < B`, and every starting integer `x` below `B ^ c` (the claim
as stated, over arbitrary `N`-bit starting integers, is refuted by
`round_trip_violated_at_u8_base3`), writing `v` at place `n` with
`set_nit_indexed` and reading the place back with `get_nit_indexed`
yields `v`. -/
theorem set_then_get_round_trip (W B c n v x : Nat)
    (h : compute_max_nits_in_bits B W = .Ok c)
    (hn : n < c) (hv : v < B) (hx : x < B ^ c) :
    get_nit_indexed W B (set_nit_indexed W B x n v).1 n = v := by
  obtain ⟨hform, hlt⟩ := set_nit_closed_form W B c n v x h hn hv hx
  have hB : 2 ≤ B := capacity_two_le B W c h
  have hsh : get_places_shifter W B n = B ^ n := shifter_eq W B c n h hn
  have hs0 : 0 < B ^ n := Nat.pos_pow_of_pos n (by omega)
  have haS : x % B ^ n < B ^ n := Nat.mod_lt _ hs0
  simp only [get_nit_indexed, hsh, hform]
  have hshape : x % B ^ n + v * B ^ n + x / B ^ (n + 1) * B ^ (n + 1)
      = x % B ^ n + B ^ n * (v + B * (x / B ^ (n + 1))) := by
    rw [pow_succ]; ring
  rw [hshape, Nat.add_mul_div_left _ _ hs0, Nat.div_eq_of_lt haS,
    Nat.zero_add, Nat.add_mul_mod_self_left]
  exact Nat.mod_eq_of_lt hv

/-- Claim C1, counterexample to the claim as stated: on the 8-bit backing
type with base 3, place 4 is a valid `PlacesIndex`, 2 is a valid base-3 digit
and 255 a valid 8-bit starting integer, yet writing 2 at place 4 of 255 and
reading place 4 back yields 1, not 2 (the wrapping update wraps). -/
theorem round_trip_violated_at_u8_base3 :
    PlacesIndex.new 8 3 4 = .Ok 4 ∧ (2 : Nat) < 3 ∧ (255 : Nat) < 2 ^ 8 ∧
      get_nit_indexed 8 3 (set_nit_indexed 8 3 255 4 2).1 4 ≠ 2 := by
  decide

/-- Claim C1, witness: the amended round trip instantiated on the 8-bit
backing type, base 3, place 4, digit 2, starting integer 200 < 3 ^ 5. -/
theorem set_then_get_round_trip_witness :
    get_nit_indexed 8 3 (set_nit_indexed 8 3 200 4 2).1 4 = 2 :=
  set_then_get_round_trip 8 3 5 4 2 200 (by decide) (by decide) (by decide)
    (by decide)

/-- Claim C2, amended: under the same validity preconditions and for a
starting integer `x < B ^ c` (the claim as stated, over arbitrary `N`-bit
starting integers, is refuted by `locality_violated_at_u8_base3`), writing a
digit at place `n` leaves the digit read at any other valid place `j ≠ n`
unchanged. -/
theorem set_preserves_other_places (W B c n j v x : Nat)
    (h : compute_max_nits_in_bits B W = .Ok c)
    (hn : n < c) (hj : j < c) (hne : j ≠ n) (hv : v < B) (hx : x < B ^ c) :
    get_nit_indexed W B (set_nit_indexed W B x n v).1 j
      = get_nit_indexed W B x j := by
  obtain ⟨hform, hlt⟩ := set_nit_closed_form W B c n v x h hn hv hx
  have hB : 2 ≤ B := capacity_two_le B W c h
  have hshj : get_places_shifter W B j = B ^ j := shifter_eq W B c j h hj
  have hs0 : 0 < B ^ n := Nat.pos_pow_of_pos n (by omega)
  have hP0 : 0 < B ^ (n + 1) := Nat.pos_pow_of_pos (n + 1) (by omega)
  have haS : x % B ^ n < B ^ n := Nat.mod_lt _ hs0
  simp only [get_nit_indexed, hshj, hform]
  rcases Nat.lt_or_ge j n with hjn | hjn
  · -- `j` is a lower place: both values share the residue `x % B ^ n`
    have hshape : x % B ^ n + v * B ^ n + x / B ^ (n + 1) * B ^ (n + 1)
        = x % B ^ n + B ^ n * (v + B * (x / B ^ (n + 1))) := by
      rw [pow_succ]; ring
    have hxshape : x = x % B ^ n + B ^ n * (x / B ^ n) :=
      (Nat.mod_add_div x (B ^ n)).symm
    rw [hshape, low_digit B n j _ _ hjn]
    conv_rhs => rw [hxshape]
    rw [low_digit B n j _ _ hjn]
  · -- `j` is a higher place: both values have the same quotient by `B ^ (n+1)`
    have hjn2 : n < j := by omega
    have f2 : (v + 1) * B ^ n ≤ B * B ^ n :=
      Nat.mul_le_mul_right (B ^ n) (by omega)
    have f2e : (v + 1) * B ^ n = v * B ^ n + B ^ n := by ring
    have f3 : B * B ^ n = B ^ (n + 1) := by
      rw [pow_succ]; exact mul_comm B (B ^ n)
    have hr : x % B ^ n + v * B ^ n < B ^ (n + 1) := by omega
    have ht_div : (x % B ^ n + v * B ^ n + x / B ^ (n + 1) * B ^ (n + 1))
        / B ^ (n + 1) = x / B ^ (n + 1) :=
      add_mul_div_self_eq _ _ _ hP0 hr
    have hxr : x % B ^ (n + 1) < B ^ (n + 1) := Nat.mod_lt _ hP0
    have hsplitj : B ^ j = B ^ (n + 1) * B ^ (j - (n + 1)) := by
      rw [← pow_add]; congr 1; omega
    rw [hsplitj, ← Nat.div_div_eq_div_mul, ← Nat.div_div_eq_div_mul, ht_div]

/-- Claim C2, counterexample to the claim as stated: on the 8-bit backing
type with base 3, places 3 and 0 are both valid, yet writing digit 2 at
place 3 of the starting integer 255 changes the digit read at place 0
from 0 to 2. -/
theorem locality_violated_at_u8_base3 :
    PlacesIndex.new 8 3 3 = .Ok 3 ∧ PlacesIndex.new 8 3 0 = .Ok 0 ∧
      (2 : Nat) < 3 ∧ (255 : Nat) < 2 ^ 8 ∧
      get_nit_indexed 8 3 (set_nit_indexed 8 3 255 3 2).1 0
        ≠ get_nit_indexed 8 3 255 0 := by
  decide

/-- Claim C2, witness: the amended locality instantiated on the 8-bit
backing type, base 3, write of digit 2 at place 3, read at place 0,
starting integer 200 < 3 ^ 5. -/
theorem set_preserves_other_places_witness :
    get_nit_indexed 8 3 (set_nit_indexed 8 3 200 3 2).1 0
      = get_nit_indexed 8 3 200 0 :=
  set_preserves_other_places 8 3 5 3 0 2 200 (by decide) (by decide)
    (by decide) (by decide) (by decide) (by decide)

/-- Claim C3: `compute_max_nits_in_bits` returns exactly `BITS` for base 2 on
every supported width, and for any larger base on which it succeeds it
returns the floor logarithm `⌊log_BASE (2 ^ BITS - 1)⌋`. -/
theorem capacity_formula :
    (∀ N, 1 ≤ N → N ≤ 128 → compute_max_nits_in_bits 2 N = .Ok N) ∧
    (∀ B N c, 2 < B → compute_max_nits_in_bits B N = .Ok c →
      c = Nat.log B (2 ^ N - 1)) := by
  constructor
  · intro N h1 h2
    simp only [compute_max_nits_in_bits, MAXIMUM_SUPPORTED_BITS]
    rw [if_neg (by omega), if_neg (by omega), if_neg (by omega), if_pos trivial]
  · intro B N c hB2 h
    obtain ⟨hN1, hN2, hBge, hcase⟩ := compute_ok_elim B N c h
    rcases hcase with ⟨hB, _⟩ | ⟨hB3, hBle, hle, hc⟩
    · omega
    · subst hc
      have hmax1 : 1 ≤ 2 ^ N - 1 := by
        have : (2 : Nat) ^ 1 ≤ 2 ^ N := Nat.pow_le_pow_right (by omega) hN1
        omega
      exact ilog_eq_log (2 ^ N - 1) B (by omega) hmax1

/-- Claim C3, witness: base 2 on 8 bits yields capacity 8, and base 3 on
8 bits succeeds with 5, the floor logarithm of 255, both instantiated
through the theorem itself. -/
theorem capacity_formula_witness :
    compute_max_nits_in_bits 2 8 = .Ok 8 ∧ (5 : Nat) = Nat.log 3 (2 ^ 8 - 1) :=
  ⟨capacity_formula.1 8 (by decide) (by decide),
   capacity_formula.2 3 8 5 (by decide) (by decide)⟩

/-- Claim C4: for any place validated against a successful capacity
computation, the shifter computation is total: the native power `B ^ n` does
not overflow the backing width (third conjunct), and the returned
`PlacesShifter` value is exactly `B ^ n` (first conjunct) and non-zero
(second conjunct). -/
theorem shifter_total (W B c n : Nat)
    (h : compute_max_nits_in_bits B W = .Ok c) (hn : n < c) :
    get_places_shifter W B n = B ^ n ∧ get_places_shifter W B n ≠ 0 ∧
      B ^ n < 2 ^ W := by
  have hB : 2 ≤ B := capacity_two_le B W c h
  have heq := shifter_eq W B c n h hn
  have hlt : B ^ n < 2 ^ W := by
    calc B ^ n < B ^ c := Nat.pow_lt_pow_right (by omega) hn
      _ ≤ 2 ^ W := capacity_pow_le B W c h
  refine ⟨heq, ?_, hlt⟩
  rw [heq]
  have := Nat.pos_pow_of_pos n (show 0 < B by omega)
  omega

/-- Claim C4, witness: the shifter facts instantiated on the 8-bit backing
type, base 3, place 4. -/
theorem shifter_total_witness :
    get_places_shifter 8 3 4 = 3 ^ 4 ∧ get_places_shifter 8 3 4 ≠ 0 ∧
      (3 : Nat) ^ 4 < 2 ^ 8 :=
  shifter_total 8 3 5 4 (by decide) (by decide)

/-- Claim C5, counterexample to the claim as stated: starting from the
8-bit value 0 with base 3 and sequentially setting places 0,1,2,3,4 to
1,2,0,0,2 with `set_nit` does not leave the integer equal to `0b11110010`
(that pattern, 242, is the all-twos packing; the sequence actually
produces 169). -/
theorem base3_packing_not_claimed_pattern :
    base3_packing_result ≠ 0b11110010 := by decide

/-- Claim C5, amended: the base-3 packing scenario leaves the integer equal
to `0b10101001` (169), and reading places 0 through 4 back with `get_nit`
yields the digits 1, 2, 0, 0, 2 that were written. -/
theorem base3_packing_amended :
    base3_packing_result = 0b10101001 ∧
    get_nit 8 3 base3_packing_result 0 = some 1 ∧
    get_nit 8 3 base3_packing_result 1 = some 2 ∧
    get_nit 8 3 base3_packing_result 2 = some 0 ∧
    get_nit 8 3 base3_packing_result 3 = some 0 ∧
    get_nit 8 3 base3_packing_result 4 = some 2 := by decide

/-- Claim C6: when the capacity computation succeeds with value `c`,
`PlacesIndex::new` rejects every index at or beyond `c` as `OutOfBounds`
and accepts every index below `c` (in particular `c - 1`). -/
theorem places_index_boundary (W B c i : Nat)
    (h : compute_max_nits_in_bits B W = .Ok c) :
    (c ≤ i → PlacesIndex.new W B i = .Err .OutOfBounds) ∧
    (i < c → PlacesIndex.new W B i = .Ok i) := by
  constructor
  · intro hge
    simp only [PlacesIndex.new, h]
    rw [if_pos (by omega)]
  · intro hlt
    simp only [PlacesIndex.new, h]
    rw [if_neg (by omega)]

/-- Claim C6, witness: on the 8-bit backing type with base 2 the capacity is
8; index 8 is rejected as out of bounds and index 7 is accepted. -/
theorem places_index_boundary_witness :
    PlacesIndex.new 8 2 8 = .Err .OutOfBounds ∧ PlacesIndex.new 8 2 7 = .Ok 7 :=
  ⟨(places_index_boundary 8 2 8 8 (by decide)).1 (by decide),
   (places_index_boundary 8 2 8 7 (by decide)).2 (by decide)⟩

/-- Claim C7: for a validated place, the digit returned by
`set_nit_indexed` is exactly what `get_nit_indexed` reads at that place
before the write. -/
theorem set_returns_previous_digit (W B c n v x : Nat)
    (_h : compute_max_nits_in_bits B W = .Ok c) (_hn : n < c) :
    (set_nit_indexed W B x n v).2 = get_nit_indexed W B x n := rfl

/-- Claim C7, witness: the previous-value property instantiated on the
8-bit backing type, base 3, place 2, starting integer 99. -/
theorem set_returns_previous_digit_witness :
    (set_nit_indexed 8 3 99 2 1).2 = get_nit_indexed 8 3 99 2 :=
  set_returns_previous_digit 8 3 5 2 1 99 (by decide) (by decide)

/-- Claim C9: writing a digit value that a validated place already holds
returns that value and leaves the backing integer bit-for-bit unchanged. -/
theorem rewrite_same_value_identity (W B c n v x : Nat)
    (h : compute_max_nits_in_bits B W = .Ok c) (_hn : n < c)
    (hv : v < B) (hxM : x < 2 ^ W)
    (hcur : get_nit_indexed W B x n = v) :
    (set_nit_indexed W B x n v).1 = x ∧ (set_nit_indexed W B x n v).2 = v := by
  have hBM : B ≤ 2 ^ W := capacity_base_le B W c h
  simp only [get_nit_indexed] at hcur
  simp only [set_nit_indexed, wrapping_sub, wrapping_mul, wrapping_add]
  rw [hcur]
  have hvM : v % 2 ^ W = v := Nat.mod_eq_of_lt (by omega)
  refine ⟨?_, rfl⟩
  rw [hvM]
  have hfull : v + (2 ^ W - v) = 2 ^ W := by omega
  rw [hfull, Nat.mod_self, Nat.zero_mul, Nat.zero_mod, Nat.add_zero]
  exact Nat.mod_eq_of_lt hxM

/-- Claim C9, witness: place 1 of the 8-bit integer 7 already holds the
base-3 digit 2; rewriting 2 there returns 2 and leaves 7 unchanged. -/
theorem rewrite_same_value_identity_witness :
    (set_nit_indexed 8 3 7 1 2).1 = 7 ∧ (set_nit_indexed 8 3 7 1 2).2 = 2 :=
  rewrite_same_value_identity 8 3 5 1 2 7 (by decide) (by decide) (by decide)
    (by decide) (by decide)

/-- Claim C10: whenever `set_nit` reports any index-creation error, the
backing integer is returned unchanged — validation happens before any
mutation. -/
theorem set_nit_err_preserves (W B x n v : Nat) (e : PlacesIndexCreationError)
    (h : (set_nit W B x n v).2 = .Err e) :
    (set_nit W B x n v).1 = x := by
  cases hM : PlacesIndex.new W B n with
  | Ok val =>
      rw [set_nit, hM] at h
      exact Result.noConfusion h
  | Err e2 =>
      rw [set_nit, hM]

/-- Claim C10, witness: setting bit 8 of an 8-bit integer fails out of
bounds and leaves the integer 5 unchanged. -/
theorem set_nit_err_preserves_witness : (set_nit 8 2 5 8 1).1 = 5 :=
  set_nit_err_preserves 8 2 5 8 1 .OutOfBounds (by decide)

/-- Claim C8: the invalid base/bit combinations of the specification
scenario fail with exactly the stated errors. -/
theorem invalid_base_bit_combinations :
    compute_max_nits_in_bits 3 1 = .Err .BaseExceedsMaxBitValues ∧
    compute_max_nits_in_bits 0 8 = .Err .BaseTooSmall ∧
    compute_max_nits_in_bits 1 8 = .Err .BaseTooSmall ∧
    compute_max_nits_in_bits 2 0 = .Err .BitsTooSmall := by decide

